import Mathlib

/-!
Verification of the wear-leveled EEPROM storage library (eeprom.h /
eeprom.c, based on AVR101 high endurance EEPROM storage).

The persistent medium is modelled as a total function from addresses to
cell contents.  A cell holds one byte: `EEPROM_Read` reduces the stored
value modulo 256 (a cell is a `uint8_t`) and `EEPROM_Write` stores its
argument modulo 256 (the `data` parameter of the C macro is a
`uint8_t`).  The wear-level factor `EEPROM_WEAR_LEVEL_FACTOR` (called
`N` below, with `EE_PARAM_BUFFER_SIZE = EE_STATUS_BUFFER_SIZE = N`) is
a compile-time constant in C and an explicit parameter here.

Ghost instrumentation (not part of the C state, used only to state
properties): `findLoopT` additionally returns the list of addresses it
read, and `EEPROM_WriteWearLeveledByte` additionally returns the
address of the data cell it physically wrote (`none` when the write was
elided).  The medium produced by a write is the first component.
-/

/-- The byte-addressable medium: address to cell content. -/
abbrev Mem := Nat → Nat

/-- Simulated `EEPROM_Read(address)`: a cell yields one byte. -/
def EEPROM_Read (m : Mem) (address : Nat) : Nat := m address % 256

/-- Simulated `EEPROM_Write(address, data)`: stores the byte `data`. -/
def EEPROM_Write (m : Mem) (address data : Nat) : Mem :=
  fun x => if x = address then data % 256 else m x

/-- The do/while scan loop of `EEPROM_FindCurrentAddress`.  `EeBufPtr`
starts at `param + N`, `EeBufEnd` is `param + 2N`.  Each iteration
reads `tmp` at the pointer, advances it, stops at the end of the
buffer, and otherwise continues while the next counter equals
`(uint8_t)(tmp + 1)`.  The returned pointer is the final `EeBufPtr`.
The fuel argument bounds the iteration count (the pointer strictly
increases toward `EeBufEnd`, so fuel `N` is exact).  The second
component is ghost: the addresses read, in order. -/
def findLoopT (m : Mem) (EeBufEnd : Nat) : Nat → Nat → Nat × List Nat
  | EeBufPtr, 0 => (EeBufPtr, [])
  | EeBufPtr, fuel + 1 =>
    let tmp := EEPROM_Read m EeBufPtr
    if EeBufPtr + 1 = EeBufEnd then (EeBufPtr + 1, [EeBufPtr])
    else if EEPROM_Read m (EeBufPtr + 1) = (tmp + 1) % 256 then
      let r := findLoopT m EeBufEnd (EeBufPtr + 1) fuel
      (r.1, EeBufPtr :: (EeBufPtr + 1) :: r.2)
    else (EeBufPtr + 1, [EeBufPtr, EeBufPtr + 1])

/-- `EEPROM_FindCurrentAddress(param)`: identify the last written
element of the status buffer and return the matching address in the
param buffer, `EeBufPtr - (EE_PARAM_BUFFER_SIZE + 1)`. -/
def EEPROM_FindCurrentAddress (N : Nat) (m : Mem) (param : Nat) : Nat :=
  (findLoopT m (param + N + N) (param + N) N).1 - (N + 1)

/-- The ghost read-trace of one `EEPROM_FindCurrentAddress(param)` call. -/
def findReadTrace (N : Nat) (m : Mem) (param : Nat) : List Nat :=
  (findLoopT m (param + N + N) (param + N) N).2

/-- The `for (uint8_t i = 1; i < EE_STATUS_BUFFER_SIZE; ++i)` loop of
`EEPROM_InitWearLeveledByte`, writing `i - 1` at `i + param + N`.
`initStatus N param m k` performs the writes for `i = 1 .. k`
(in C, `k = N - 1`; the iteration variable here is `j = i - 1`). -/
def initStatus (N param : Nat) (m : Mem) : Nat → Mem
  | 0 => m
  | j + 1 => EEPROM_Write (initStatus N param m j) (param + N + (j + 1)) j

/-- `EEPROM_InitWearLeveledByte(param, data)`: writes
`EE_STATUS_BUFFER_SIZE - 1` at `param + N`, then `i - 1` at
`i + param + N` for `i = 1 .. N-1`, then `data` at `param`, and
returns (a copy of) `data`. -/
def EEPROM_InitWearLeveledByte (N : Nat) (m : Mem) (param data : Nat) :
    Mem × Nat :=
  let m1 := EEPROM_Write m (param + N) (N - 1)
  let m2 := initStatus N param m1 (N - 1)
  let m3 := EEPROM_Write m2 param data
  (m3, data % 256)

/-- `EEPROM_ReadWearLeveledByte(param)`: read the currently active cell. -/
def EEPROM_ReadWearLeveledByte (N : Nat) (m : Mem) (param : Nat) : Nat :=
  EEPROM_Read m (EEPROM_FindCurrentAddress N m param)

/-- `EEPROM_WriteWearLeveledByte(param, data)`: if the stored value
already equals `data`, do nothing; otherwise save the old status
value, advance the address with wraparound
(`if (++address == param + N) address = param`), write the data cell,
then write the status cell `address + N` with `oldStatusValue + 1`.
The second component is ghost: the address of the physical data write,
`none` when the write was elided. -/
def EEPROM_WriteWearLeveledByte (N : Nat) (m : Mem) (param data0 : Nat) :
    Mem × Option Nat :=
  let data := data0 % 256
  let address := EEPROM_FindCurrentAddress N m param
  if EEPROM_Read m address = data then (m, none)
  else
    let oldStatusValue := EEPROM_Read m (address + N)
    let address2 := if address + 1 = param + N then param else address + 1
    (EEPROM_Write (EEPROM_Write m address2 data) (address2 + N)
       (oldStatusValue + 1),
     some address2)

/-- Loop of `EEPROM_InitWearLeveledBlock`: byte `i` of the block uses
the slot-group based at `param + i * (EE_PARAM_BUFFER_SIZE +
EE_STATUS_BUFFER_SIZE)`. -/
def initBlockAux (N param : Nat) : Mem → Nat → List Nat → Mem
  | m, _, [] => m
  | m, i, d :: ds =>
    initBlockAux N param
      (EEPROM_InitWearLeveledByte N m (param + i * (N + N)) d).1 (i + 1) ds

/-- `EEPROM_InitWearLeveledBlock(param, data, len)` with the caller
buffer given as a list of `len` bytes. -/
def EEPROM_InitWearLeveledBlock (N : Nat) (m : Mem) (param : Nat)
    (data : List Nat) : Mem :=
  initBlockAux N param m 0 data

/-- Loop of `EEPROM_WriteWearLeveledBlock`: byte `i` of the block is
written to the slot-group based at `param + i * (N + N)`. -/
def writeBlockAux (N param : Nat) : Mem → Nat → List Nat → Mem
  | m, _, [] => m
  | m, i, d :: ds =>
    writeBlockAux N param
      (EEPROM_WriteWearLeveledByte N m (param + i * (N + N)) d).1 (i + 1) ds

/-- `EEPROM_WriteWearLeveledBlock(param, data, len)` with the caller
buffer given as a list of `len` bytes. -/
def EEPROM_WriteWearLeveledBlock (N : Nat) (m : Mem) (param : Nat)
    (data : List Nat) : Mem :=
  writeBlockAux N param m 0 data

/-- Apply a sequence of `EEPROM_WriteWearLeveledByte` calls in order. -/
def applyWrites (N param : Nat) : Mem → List Nat → Mem
  | m, [] => m
  | m, v :: vs => applyWrites N param (EEPROM_WriteWearLeveledByte N m param v).1 vs

/-- Apply a sequence of `EEPROM_WriteWearLeveledByte` calls while
tracking (ghost) the address of the most recent physical data write. -/
def runUpdates (N param : Nat) : Mem × Nat → List Nat → Mem × Nat
  | st, [] => st
  | st, v :: vs =>
    let r := EEPROM_WriteWearLeveledByte N st.1 param v
    runUpdates N param (r.1, r.2.getD st.2) vs

/-- Value of generation counter `i` in a slot-group whose oldest live
counter sits at index `s` with value `B`: the counters form one
ascending run `B, B+1, ...` (mod 256) starting at index `s` and
wrapping around the ring of `N` slots. -/
def genVal (N s B i : Nat) : Nat := (B + (i + N - s) % N) % 256

/-- Generation-counter invariant of a slot-group at `param`: every
counter matches `genVal N s B`. -/
abbrev InvG (N : Nat) (m : Mem) (param s B : Nat) : Prop :=
  ∀ i, i < N → EEPROM_Read m (param + N + i) = genVal N s B i

/-- Full slot-group invariant: counters form the single ascending run
described by `s` and `B`, and the active data cell (at index
`(s + N - 1) % N`, the newest counter) stores the byte `v`. -/
abbrev Good (N : Nat) (m : Mem) (param s B v : Nat) : Prop :=
  s < N ∧ B < 256 ∧ v < 256 ∧ InvG N m param s B ∧
    EEPROM_Read m (param + (s + N - 1) % N) = v

/-- The simulated EEPROM starts with every cell erased to `0xFF`. -/
def eeprom0 : Mem := fun _ => 255

/-- State of the demo medium after `EEPROM_InitWearLeveledByte(0, 0x40)`
with `N = 8` (the build configuration of the repository). -/
def demoInit : Mem := (EEPROM_InitWearLeveledByte 8 eeprom0 0 64).1

/-- State of the demo medium after the subsequent
`EEPROM_WriteWearLeveledByte(0, 0x41)`. -/
def demoW1 : Mem := (EEPROM_WriteWearLeveledByte 8 demoInit 0 65).1

/-- State after `EEPROM_InitWearLeveledByte(0, 0x40)` with wear-level
factor 256 (counter-wraparound boundary case). -/
def M256 : Mem := (EEPROM_InitWearLeveledByte 256 eeprom0 0 64).1

/-! ### Basic read/write lemmas -/

theorem EEPROM_Write_self (m : Mem) (a v : Nat) :
    EEPROM_Write m a v a = v % 256 := by
  simp [EEPROM_Write]

theorem EEPROM_Write_ne (m : Mem) (a v x : Nat) (h : x ≠ a) :
    EEPROM_Write m a v x = m x := by
  simp [EEPROM_Write, h]

theorem EEPROM_Read_Write_self (m : Mem) (a v : Nat) :
    EEPROM_Read (EEPROM_Write m a v) a = v % 256 := by
  simp [EEPROM_Read, EEPROM_Write]

theorem EEPROM_Read_Write_ne (m : Mem) (a v x : Nat) (h : x ≠ a) :
    EEPROM_Read (EEPROM_Write m a v) x = EEPROM_Read m x := by
  simp [EEPROM_Read, EEPROM_Write, h]

theorem EEPROM_Read_lt (m : Mem) (a : Nat) : EEPROM_Read m a < 256 := by
  unfold EEPROM_Read
  omega

/-! ### Arithmetic of ring indices -/

theorem mod_sub_char (N s i : Nat) (hs : s < N) (hi : i < N) :
    (i + N - s) % N = if s ≤ i then i - s else i + N - s := by
  split
  case isTrue h =>
    have h2 : i + N - s = N + (i - s) := by omega
    rw [h2, Nat.add_mod_left, Nat.mod_eq_of_lt (by omega)]
  case isFalse h =>
    exact Nat.mod_eq_of_lt (by omega)

theorem active_char (N s : Nat) (hN : 1 ≤ N) (hs : s < N) :
    (s + N - 1) % N = if s = 0 then N - 1 else s - 1 := by
  split
  case isTrue h =>
    subst h
    simp only [Nat.zero_add]
    exact Nat.mod_eq_of_lt (by omega)
  case isFalse h =>
    have h2 : s + N - 1 = (s - 1) + N := by omega
    rw [h2, Nat.add_mod_right, Nat.mod_eq_of_lt (by omega)]

theorem active_dist (N s : Nat) (hN : 1 ≤ N) (hs : s < N) :
    ((s + N - 1) % N + N - s) % N = N - 1 := by
  rw [active_char N s hN hs]
  split
  case isTrue h =>
    subst h
    have h2 : N - 1 + N - 0 = (N - 1) + N := by omega
    rw [h2, Nat.add_mod_right, Nat.mod_eq_of_lt (by omega)]
  case isFalse h =>
    have h2 : s - 1 + N - s = N - 1 := by omega
    rw [h2, Nat.mod_eq_of_lt (by omega)]

theorem active_succ (N s : Nat) (hN : 1 ≤ N) (hs : s < N) :
    ((s + 1) % N + N - 1) % N = s := by
  by_cases h : s + 1 = N
  · rw [h, Nat.mod_self]
    simp only [Nat.zero_add]
    rw [Nat.mod_eq_of_lt (by omega)]
    omega
  · rw [Nat.mod_eq_of_lt (by omega : s + 1 < N)]
    have h2 : s + 1 + N - 1 = s + N := by omega
    rw [h2, Nat.add_mod_right, Nat.mod_eq_of_lt hs]

theorem init_active (N : Nat) (hN : 1 ≤ N) : (1 % N + N - 1) % N = 0 := by
  by_cases h1 : N = 1
  · subst h1
    decide
  · rw [Nat.mod_eq_of_lt (by omega : 1 < N)]
    have h2 : 1 + N - 1 = N := by omega
    rw [h2, Nat.mod_self]

/-! ### Generation-counter value lemmas -/

theorem genVal_lt (N s B i : Nat) : genVal N s B i < 256 := by
  unfold genVal
  omega

theorem genVal_active (N s B : Nat) (hN : 1 ≤ N) (hs : s < N) :
    genVal N s B ((s + N - 1) % N) = (B + (N - 1)) % 256 := by
  unfold genVal
  rw [active_dist N s hN hs]

theorem genVal_adj_match (N s B i : Nat) (hs : s < N) (hi : i + 1 < N)
    (hne : i + 1 ≠ s) :
    genVal N s B (i + 1) = (genVal N s B i + 1) % 256 := by
  unfold genVal
  have key : (i + 1 + N - s) % N = (i + N - s) % N + 1 := by
    rw [mod_sub_char N s (i + 1) hs hi, mod_sub_char N s i hs (by omega)]
    split <;> split <;> omega
  rw [key]
  generalize (i + N - s) % N = t
  omega

theorem genVal_adj_break (N s B i : Nat) (hN1 : 1 ≤ N) (hN : N ≤ 255)
    (hB : B < 256) (hs : s < N) (hi : i + 1 < N) (heq : i + 1 = s) :
    genVal N s B (i + 1) ≠ (genVal N s B i + 1) % 256 := by
  unfold genVal
  have k1 : (i + 1 + N - s) % N = 0 := by
    rw [← heq]
    have h2 : i + 1 + N - (i + 1) = N := by omega
    rw [h2, Nat.mod_self]
  have k2 : (i + N - s) % N = N - 1 := by
    rw [← heq]
    have h2 : i + N - (i + 1) = N - 1 := by omega
    rw [h2, Nat.mod_eq_of_lt (by omega)]
  rw [k1, k2]
  omega

theorem genVal_shift (N s B i : Nat) (hN1 : 1 ≤ N) (hB : B < 256)
    (hs : s < N) (hi : i < N) (hne : i ≠ s) :
    genVal N ((s + 1) % N) ((B + 1) % 256) i = genVal N s B i := by
  unfold genVal
  have hd1 : 1 ≤ (i + N - s) % N := by
    rw [mod_sub_char N s i hs hi]
    split <;> omega
  have key : (i + N - (s + 1) % N) % N = (i + N - s) % N - 1 := by
    by_cases h : s + 1 = N
    · rw [h, Nat.mod_self]
      rw [mod_sub_char N 0 i (by omega) hi, mod_sub_char N s i hs hi]
      split <;> split <;> omega
    · rw [Nat.mod_eq_of_lt (by omega : s + 1 < N)]
      rw [mod_sub_char N (s + 1) i (by omega) hi, mod_sub_char N s i hs hi]
      split <;> split <;> omega
  rw [key]
  generalize hg : (i + N - s) % N = t at hd1
  omega

theorem genVal_new_seam (N s B : Nat) (hN1 : 1 ≤ N) (hs : s < N) :
    genVal N ((s + 1) % N) ((B + 1) % 256) s = (B + N) % 256 := by
  unfold genVal
  have key : (s + N - (s + 1) % N) % N = N - 1 := by
    by_cases h : s + 1 = N
    · rw [h, Nat.mod_self]
      have h2 : s + N - 0 = s + N := by omega
      rw [h2, Nat.add_mod_right, Nat.mod_eq_of_lt hs]
      omega
    · rw [Nat.mod_eq_of_lt (by omega : s + 1 < N)]
      have h2 : s + N - (s + 1) = N - 1 := by omega
      rw [h2, Nat.mod_eq_of_lt (by omega)]
  rw [key]
  omega

/-! ### Scan-loop lemmas -/

theorem findLoopT_stop (m : Mem) (param N a : Nat) (hN : 1 ≤ N) (ha : a < N)
    (H1 : ∀ i, i < a →
      EEPROM_Read m (param + N + (i + 1)) = (EEPROM_Read m (param + N + i) + 1) % 256)
    (H2 : a + 1 < N →
      EEPROM_Read m (param + N + (a + 1)) ≠ (EEPROM_Read m (param + N + a) + 1) % 256) :
    ∀ f c, c ≤ a → f + c = N →
      (findLoopT m (param + N + N) (param + N + c) f).1 = param + N + (a + 1) := by
  intro f
  induction f with
  | zero =>
    intro c hc hf
    exact absurd hf (by omega)
  | succ f ih =>
    intro c hc hf
    simp only [findLoopT]
    by_cases hend : param + N + c + 1 = param + N + N
    · rw [if_pos hend]
      have hca : c = a := by omega
      simp only []
      omega
    · rw [if_neg hend]
      have hc1 : c + 1 < N := by omega
      have e1 : param + N + c + 1 = param + N + (c + 1) := by omega
      by_cases hca : c = a
      · subst hca
        rw [e1, if_neg (H2 (by omega))]
      · rw [e1, if_pos (H1 c (by omega))]
        simp only []
        exact ih (c + 1) (by omega) (by omega)

theorem findLoopT_range (m : Mem) (param N : Nat) :
    ∀ f c, c < N → f + c = N →
      (param + N + c + 1 ≤ (findLoopT m (param + N + N) (param + N + c) f).1 ∧
        (findLoopT m (param + N + N) (param + N + c) f).1 ≤ param + N + N) ∧
      ∀ x ∈ (findLoopT m (param + N + N) (param + N + c) f).2,
        param + N + c ≤ x ∧ x < param + N + N := by
  intro f
  induction f with
  | zero =>
    intro c hc hf
    exact absurd hf (by omega)
  | succ f ih =>
    intro c hc hf
    simp only [findLoopT]
    by_cases hend : param + N + c + 1 = param + N + N
    · rw [if_pos hend]
      refine ⟨by omega, ?_⟩
      intro x hx
      simp only [List.mem_singleton] at hx
      omega
    · rw [if_neg hend]
      have hc1 : c + 1 < N := by omega
      have e1 : param + N + c + 1 = param + N + (c + 1) := by omega
      by_cases hm : EEPROM_Read m (param + N + c + 1) =
          (EEPROM_Read m (param + N + c) + 1) % 256
      · rw [if_pos hm]
        simp only []
        have h := ih (c + 1) hc1 (by omega)
        rw [← e1] at h
        refine ⟨by omega, ?_⟩
        intro x hx
        simp only [List.mem_cons] at hx
        rcases hx with hx | hx | hx
        · omega
        · omega
        · have := h.2 x hx
          omega
      · rw [if_neg hm]
        refine ⟨by omega, ?_⟩
        intro x hx
        simp only [List.mem_cons, List.not_mem_nil, or_false] at hx
        rcases hx with hx | hx
        · omega
        · omega

theorem findLoopT_congr (m1 m2 : Mem) (eEnd lo : Nat)
    (h : ∀ y, lo ≤ y → y < eEnd → m1 y = m2 y) :
    ∀ f p, lo ≤ p → p < eEnd →
      findLoopT m1 eEnd p f = findLoopT m2 eEnd p f := by
  intro f
  induction f with
  | zero => intro p _ _; rfl
  | succ f ih =>
    intro p hlo hp
    have e1 : EEPROM_Read m1 p = EEPROM_Read m2 p := by
      unfold EEPROM_Read
      rw [h p hlo hp]
    by_cases hend : p + 1 = eEnd
    · simp only [findLoopT, if_pos hend]
    · have hp1 : p + 1 < eEnd := by omega
      have e2 : EEPROM_Read m1 (p + 1) = EEPROM_Read m2 (p + 1) := by
        unfold EEPROM_Read
        rw [h (p + 1) (by omega) hp1]
      simp only [findLoopT, if_neg hend]
      rw [e1, e2]
      by_cases hm : EEPROM_Read m2 (p + 1) = (EEPROM_Read m2 p + 1) % 256
      · rw [if_pos hm, if_pos hm, ih (p + 1) (by omega) hp1]
      · rw [if_neg hm, if_neg hm]

theorem find_range (N : Nat) (hN : 1 ≤ N) (m : Mem) (param : Nat) :
    param ≤ EEPROM_FindCurrentAddress N m param ∧
      EEPROM_FindCurrentAddress N m param < param + N := by
  unfold EEPROM_FindCurrentAddress
  have h := findLoopT_range m param N N 0 (by omega) (by omega)
  simp only [Nat.add_zero] at h
  omega

theorem find_congr (N : Nat) (hN : 1 ≤ N) (m1 m2 : Mem) (param : Nat)
    (h : ∀ y, param + N ≤ y → y < param + N + N → m1 y = m2 y) :
    EEPROM_FindCurrentAddress N m1 param = EEPROM_FindCurrentAddress N m2 param := by
  unfold EEPROM_FindCurrentAddress
  rw [findLoopT_congr m1 m2 (param + N + N) (param + N) h N (param + N)
    (Nat.le_refl _) (by omega)]

theorem readByte_congr (N : Nat) (hN : 1 ≤ N) (m1 m2 : Mem) (param : Nat)
    (h : ∀ y, param ≤ y → y < param + N + N → m1 y = m2 y) :
    EEPROM_ReadWearLeveledByte N m1 param = EEPROM_ReadWearLeveledByte N m2 param := by
  unfold EEPROM_ReadWearLeveledByte
  have hf : EEPROM_FindCurrentAddress N m1 param = EEPROM_FindCurrentAddress N m2 param :=
    find_congr N hN m1 m2 param (fun y hy1 hy2 => h y (by omega) hy2)
  rw [hf]
  have hr := find_range N hN m2 param
  unfold EEPROM_Read
  rw [h (EEPROM_FindCurrentAddress N m2 param) (by omega) (by omega)]

/-! ### The resolver locates the active slot -/

theorem run_match (N : Nat) (hN1 : 1 ≤ N) (m : Mem) (param s B : Nat)
    (hs : s < N) (hInv : InvG N m param s B) :
    ∀ i, i < (s + N - 1) % N →
      EEPROM_Read m (param + N + (i + 1)) = (EEPROM_Read m (param + N + i) + 1) % 256 := by
  intro i hi
  have ha : (s + N - 1) % N < N := Nat.mod_lt _ (by omega)
  rw [hInv (i + 1) (by omega), hInv i (by omega)]
  apply genVal_adj_match N s B i hs (by omega)
  rw [active_char N s hN1 hs] at hi
  by_cases h0 : s = 0
  · rw [if_pos h0] at hi
    omega
  · rw [if_neg h0] at hi
    omega

theorem run_break (N : Nat) (hN1 : 1 ≤ N) (hN : N ≤ 255) (m : Mem)
    (param s B : Nat) (hs : s < N) (hB : B < 256) (hInv : InvG N m param s B) :
    (s + N - 1) % N + 1 < N →
      EEPROM_Read m (param + N + ((s + N - 1) % N + 1)) ≠
        (EEPROM_Read m (param + N + (s + N - 1) % N) + 1) % 256 := by
  intro hlt
  have ha : (s + N - 1) % N < N := Nat.mod_lt _ (by omega)
  rw [hInv _ (by omega), hInv _ (by omega)]
  apply genVal_adj_break N s B _ hN1 hN hB hs hlt
  rw [active_char N s hN1 hs] at hlt ⊢
  by_cases h0 : s = 0
  · rw [if_pos h0] at hlt
    omega
  · rw [if_neg h0] at hlt ⊢
    omega

theorem find_active (N : Nat) (hN1 : 1 ≤ N) (hN : N ≤ 255) (m : Mem)
    (param s B : Nat) (hs : s < N) (hB : B < 256) (hInv : InvG N m param s B) :
    EEPROM_FindCurrentAddress N m param = param + (s + N - 1) % N := by
  have ha : (s + N - 1) % N < N := Nat.mod_lt _ (by omega)
  have hstop := findLoopT_stop m param N ((s + N - 1) % N) hN1 ha
    (run_match N hN1 m param s B hs hInv)
    (run_break N hN1 hN m param s B hs hB hInv)
    N 0 (by omega) (by omega)
  simp only [Nat.add_zero] at hstop
  unfold EEPROM_FindCurrentAddress
  rw [hstop]
  omega

theorem readByte_good (N : Nat) (hN1 : 1 ≤ N) (hN : N ≤ 255)
    {m : Mem} {param s B v : Nat} (hG : Good N m param s B v) :
    EEPROM_ReadWearLeveledByte N m param = v := by
  obtain ⟨hs, hB, hv, hInv, hdata⟩ := hG
  unfold EEPROM_ReadWearLeveledByte
  rw [find_active N hN1 hN m param s B hs hB hInv]
  exact hdata

/-! ### The state established by EEPROM_InitWearLeveledByte -/

theorem initStatus_ne (N param : Nat) (m : Mem) (k x : Nat)
    (h : ∀ j, j < k → x ≠ param + N + (j + 1)) :
    initStatus N param m k x = m x := by
  induction k with
  | zero => rfl
  | succ k ih =>
    show EEPROM_Write (initStatus N param m k) (param + N + (k + 1)) k x = m x
    rw [EEPROM_Write_ne _ _ _ _ (h k (by omega))]
    exact ih (fun j hj => h j (by omega))

theorem initStatus_eq (N param : Nat) (m : Mem) (k j : Nat) (hj : j < k) :
    initStatus N param m k (param + N + (j + 1)) = j % 256 := by
  induction k with
  | zero => exact absurd hj (by omega)
  | succ k ih =>
    show EEPROM_Write (initStatus N param m k) (param + N + (k + 1)) k
      (param + N + (j + 1)) = j % 256
    by_cases h : j = k
    · subst h
      exact EEPROM_Write_self _ _ _
    · rw [EEPROM_Write_ne _ _ _ _ (by omega : param + N + (j + 1) ≠ param + N + (k + 1))]
      exact ih (by omega)

theorem init_read_gen0 (N : Nat) (hN : 1 ≤ N) (m : Mem) (param v : Nat) :
    EEPROM_Read (EEPROM_InitWearLeveledByte N m param v).1 (param + N) = (N - 1) % 256 := by
  unfold EEPROM_InitWearLeveledByte EEPROM_Read
  simp only []
  rw [EEPROM_Write_ne _ _ _ _ (by omega : param + N ≠ param)]
  rw [initStatus_ne N param _ (N - 1) (param + N) (fun j hj => by omega)]
  rw [EEPROM_Write_self]
  omega

theorem init_read_gen (N : Nat) (m : Mem) (param v i : Nat)
    (h1 : 1 ≤ i) (hi : i < N) :
    EEPROM_Read (EEPROM_InitWearLeveledByte N m param v).1 (param + N + i)
      = (i - 1) % 256 := by
  unfold EEPROM_InitWearLeveledByte EEPROM_Read
  simp only []
  rw [EEPROM_Write_ne _ _ _ _ (by omega : param + N + i ≠ param)]
  have h2 : param + N + i = param + N + ((i - 1) + 1) := by omega
  rw [h2, initStatus_eq N param _ (N - 1) (i - 1) (by omega)]
  omega

theorem init_read_data (N : Nat) (hN : 1 ≤ N) (m : Mem) (param v : Nat) :
    EEPROM_Read (EEPROM_InitWearLeveledByte N m param v).1 param = v % 256 := by
  unfold EEPROM_InitWearLeveledByte
  simp only []
  rw [EEPROM_Read_Write_self]

theorem init_read_data_other (N : Nat) (m : Mem) (param v k : Nat)
    (h1 : 1 ≤ k) (hk : k < N) :
    EEPROM_Read (EEPROM_InitWearLeveledByte N m param v).1 (param + k)
      = EEPROM_Read m (param + k) := by
  unfold EEPROM_InitWearLeveledByte EEPROM_Read
  simp only []
  rw [EEPROM_Write_ne _ _ _ _ (by omega : param + k ≠ param)]
  rw [initStatus_ne N param _ (N - 1) (param + k) (fun j hj => by omega)]
  rw [EEPROM_Write_ne _ _ _ _ (by omega : param + k ≠ param + N)]

theorem init_good (N : Nat) (hN1 : 1 ≤ N) (hN : N ≤ 255) (m : Mem)
    (param v : Nat) (hv : v < 256) :
    Good N (EEPROM_InitWearLeveledByte N m param v).1 param (1 % N) 0 v := by
  refine ⟨Nat.mod_lt _ (by omega), by omega, hv, ?_, ?_⟩
  · intro i hi
    by_cases hi0 : i = 0
    · subst hi0
      have h := init_read_gen0 N hN1 m param v
      simp only [Nat.add_zero]
      rw [h]
      unfold genVal
      by_cases h1 : N = 1
      · subst h1
        decide
      · rw [Nat.mod_eq_of_lt (by omega : 1 < N)]
        have e : 0 + N - 1 = N - 1 := by omega
        rw [e, Nat.mod_eq_of_lt (show N - 1 < N by omega), Nat.zero_add]
    · rw [init_read_gen N m param v i (by omega) hi]
      unfold genVal
      by_cases h1 : N = 1
      · exact absurd hi (by omega)
      · rw [Nat.mod_eq_of_lt (by omega : 1 < N)]
        have e : (i + N - 1) % N = i - 1 := by
          have e2 : i + N - 1 = (i - 1) + N := by omega
          rw [e2, Nat.add_mod_right, Nat.mod_eq_of_lt (by omega)]
        rw [e, Nat.zero_add]
  · rw [init_active N hN1]
    simp only [Nat.add_zero]
    rw [init_read_data N hN1 m param v, Nat.mod_eq_of_lt hv]

/-! ### The write path -/

theorem write_elide (N : Nat) (m : Mem) (param w : Nat) (hw : w < 256)
    (hr : EEPROM_ReadWearLeveledByte N m param = w) :
    EEPROM_WriteWearLeveledByte N m param w = (m, none) := by
  unfold EEPROM_WriteWearLeveledByte
  simp only [Nat.mod_eq_of_lt hw]
  unfold EEPROM_ReadWearLeveledByte at hr
  rw [if_pos hr]

theorem write_step (N : Nat) (hN1 : 1 ≤ N) (hN : N ≤ 255) (m : Mem)
    (param s B v w : Nat) (hG : Good N m param s B v) (hw : w < 256)
    (hne : w ≠ v) :
    EEPROM_WriteWearLeveledByte N m param w =
      (EEPROM_Write (EEPROM_Write m (param + s) w) (param + s + N)
        ((B + (N - 1)) % 256 + 1), some (param + s)) := by
  obtain ⟨hs, hB, hv, hInv, hdata⟩ := hG
  unfold EEPROM_WriteWearLeveledByte
  simp only [Nat.mod_eq_of_lt hw]
  rw [find_active N hN1 hN m param s B hs hB hInv]
  rw [hdata]
  rw [if_neg (fun h => hne h.symm)]
  have hold : EEPROM_Read m (param + (s + N - 1) % N + N) = (B + (N - 1)) % 256 := by
    have e : param + (s + N - 1) % N + N = param + N + (s + N - 1) % N := by omega
    rw [e, hInv _ (Nat.mod_lt _ (by omega))]
    exact genVal_active N s B hN1 hs
  rw [hold]
  have haddr : (if param + (s + N - 1) % N + 1 = param + N then param
      else param + (s + N - 1) % N + 1) = param + s := by
    rw [active_char N s hN1 hs]
    by_cases h0 : s = 0
    · rw [if_pos h0, if_pos (by omega)]
      omega
    · rw [if_neg h0, if_neg (by omega)]
      omega
  rw [haddr]

theorem write_result_good (N : Nat) (hN1 : 1 ≤ N) (hN : N ≤ 255) (m : Mem)
    (param s B v w : Nat) (hG : Good N m param s B v) (hw : w < 256)
    (hne : w ≠ v) :
    Good N (EEPROM_Write (EEPROM_Write m (param + s) w) (param + s + N)
        ((B + (N - 1)) % 256 + 1)) param ((s + 1) % N) ((B + 1) % 256) w := by
  obtain ⟨hs, hB, hv, hInv, hdata⟩ := hG
  refine ⟨Nat.mod_lt _ (by omega), by omega, hw, ?_, ?_⟩
  · intro i hi
    by_cases his : i = s
    · subst his
      have e : param + N + i = param + i + N := by omega
      rw [e, EEPROM_Read_Write_self]
      rw [genVal_new_seam N i B hN1 hs]
      omega
    · rw [EEPROM_Read_Write_ne _ _ _ _ (by omega : param + N + i ≠ param + s + N)]
      rw [EEPROM_Read_Write_ne _ _ _ _ (by omega : param + N + i ≠ param + s)]
      rw [hInv i hi]
      exact (genVal_shift N s B i hN1 hB hs hi his).symm
  · rw [active_succ N s hN1 hs]
    rw [EEPROM_Read_Write_ne _ _ _ _ (by omega : param + s ≠ param + s + N)]
    rw [EEPROM_Read_Write_self]
    exact Nat.mod_eq_of_lt hw

theorem writeByte_frame (N : Nat) (hN1 : 1 ≤ N) (m : Mem) (param w x : Nat)
    (hx : x < param ∨ param + N + N ≤ x) :
    (EEPROM_WriteWearLeveledByte N m param w).1 x = m x := by
  unfold EEPROM_WriteWearLeveledByte
  simp only []
  by_cases hc : EEPROM_Read m (EEPROM_FindCurrentAddress N m param) = w % 256
  · rw [if_pos hc]
  · rw [if_neg hc]
    have hr := find_range N hN1 m param
    have h2 : param ≤ (if EEPROM_FindCurrentAddress N m param + 1 = param + N
          then param else EEPROM_FindCurrentAddress N m param + 1) ∧
        (if EEPROM_FindCurrentAddress N m param + 1 = param + N
          then param else EEPROM_FindCurrentAddress N m param + 1) < param + N := by
      constructor
      · split
        · omega
        · omega
      · split
        · omega
        · omega
    dsimp only
    rw [EEPROM_Write_ne _ _ _ _ (by omega), EEPROM_Write_ne _ _ _ _ (by omega)]

/-! ### Sequences of updates -/

theorem applyWrites_good (N : Nat) (hN1 : 1 ≤ N) (hN : N ≤ 255) :
    ∀ (vs : List Nat) (m : Mem) (param s B v : Nat), Good N m param s B v →
      (∀ u ∈ vs, u < 256) →
      ∃ t C, Good N (applyWrites N param m vs) param t C (vs.getLastD v) := by
  intro vs
  induction vs with
  | nil => exact fun m param s B v hG _ => ⟨s, B, hG⟩
  | cons u vs ih =>
    intro m param s B v hG hu
    rw [List.getLastD_cons]
    show ∃ t C, Good N
      (applyWrites N param (EEPROM_WriteWearLeveledByte N m param u).1 vs)
      param t C (vs.getLastD u)
    by_cases he : u = v
    · subst he
      rw [write_elide N m param u (hu u (by simp)) (readByte_good N hN1 hN hG)]
      exact ih m param s B u hG (fun x hx => hu x (by simp [hx]))
    · rw [write_step N hN1 hN m param s B v u hG (hu u (by simp)) he]
      exact ih _ param ((s + 1) % N) ((B + 1) % 256) u
        (write_result_good N hN1 hN m param s B v u hG (hu u (by simp)) he)
        (fun x hx => hu x (by simp [hx]))

theorem runUpdates_good (N : Nat) (hN1 : 1 ≤ N) (hN : N ≤ 255) :
    ∀ (vs : List Nat) (m : Mem) (param s B v last : Nat), Good N m param s B v →
      last = param + (s + N - 1) % N →
      (∀ u ∈ vs, u < 256) →
      ∃ t C x, Good N (runUpdates N param (m, last) vs).1 param t C x ∧
        (runUpdates N param (m, last) vs).2 = param + (t + N - 1) % N := by
  intro vs
  induction vs with
  | nil => exact fun m param s B v last hG hlast _ => ⟨s, B, v, hG, hlast⟩
  | cons u vs ih =>
    intro m param s B v last hG hlast hu
    simp only [runUpdates]
    by_cases he : u = v
    · subst he
      rw [write_elide N m param u (hu u (by simp)) (readByte_good N hN1 hN hG)]
      simp only [Option.getD_none]
      exact ih m param s B u last hG hlast (fun x hx => hu x (by simp [hx]))
    · rw [write_step N hN1 hN m param s B v u hG (hu u (by simp)) he]
      simp only [Option.getD_some]
      refine ih _ param ((s + 1) % N) ((B + 1) % 256) u (param + s)
        (write_result_good N hN1 hN m param s B v u hG (hu u (by simp)) he)
        ?_ (fun x hx => hu x (by simp [hx]))
      rw [active_succ N s hN1 hG.1]

theorem applyWrites_chain (N : Nat) (hN1 : 1 ≤ N) (hN : N ≤ 255) :
    ∀ (vs : List Nat) (m : Mem) (param s B v : Nat), Good N m param s B v →
      (∀ u ∈ vs, u < 256) →
      List.Chain' (fun a b => a ≠ b) (v :: vs) →
      ∃ C, Good N (applyWrites N param m vs) param ((s + vs.length) % N) C
        (vs.getLastD v) := by
  intro vs
  induction vs with
  | nil =>
    intro m param s B v hG _ _
    refine ⟨B, ?_⟩
    simpa [Nat.mod_eq_of_lt hG.1] using hG
  | cons u vs ih =>
    intro m param s B v hG hu hchain
    rw [List.chain'_cons] at hchain
    have hne : u ≠ v := fun h => hchain.1 h.symm
    rw [List.getLastD_cons]
    show ∃ C, Good N
      (applyWrites N param (EEPROM_WriteWearLeveledByte N m param u).1 vs)
      param ((s + (u :: vs).length) % N) C (vs.getLastD u)
    rw [write_step N hN1 hN m param s B v u hG (hu u (by simp)) hne]
    obtain ⟨C, hC⟩ := ih _ param ((s + 1) % N) ((B + 1) % 256) u
      (write_result_good N hN1 hN m param s B v u hG (hu u (by simp)) hne)
      (fun x hx => hu x (by simp [hx])) hchain.2
    refine ⟨C, ?_⟩
    have e : ((s + 1) % N + vs.length) % N = (s + (u :: vs).length) % N := by
      rw [Nat.mod_add_mod]
      simp only [List.length_cons]
      have e2 : s + 1 + vs.length = s + (vs.length + 1) := by omega
      rw [e2]
    rw [e] at hC
    exact hC

/-! ### Frame property of block writes -/

theorem writeBlockAux_frame (N param j : Nat) (hN1 : 1 ≤ N) :
    ∀ (buf : List Nat) (i0 : Nat) (m : Mem),
      (∀ u ∈ buf, u < 256) →
      (∀ t, t < buf.length → i0 + t ≠ j →
        EEPROM_ReadWearLeveledByte N m (param + (i0 + t) * (N + N)) = buf.getD t 0) →
      ∀ x, ¬(param + j * (N + N) ≤ x ∧ x < param + j * (N + N) + (N + N)) →
        writeBlockAux N param m i0 buf x = m x := by
  intro buf
  induction buf with
  | nil =>
    intro i0 m _ _ x _
    rfl
  | cons d buf ih =>
    intro i0 m hlt hread x hx
    simp only [writeBlockAux]
    by_cases hij : i0 = j
    · subst hij
      have hframe : ∀ y, y < param + i0 * (N + N) ∨
          param + i0 * (N + N) + (N + N) ≤ y →
          (EEPROM_WriteWearLeveledByte N m (param + i0 * (N + N)) d).1 y = m y := by
        intro y hy
        exact writeByte_frame N hN1 m _ d y (by omega)
      have hrd : ∀ t, t < buf.length → (i0 + 1) + t ≠ i0 →
          EEPROM_ReadWearLeveledByte N
            (EEPROM_WriteWearLeveledByte N m (param + i0 * (N + N)) d).1
            (param + (i0 + 1 + t) * (N + N)) = buf.getD t 0 := by
        intro t ht _
        have hb := hread (t + 1) (by simp only [List.length_cons]; omega) (by omega)
        have e : i0 + (t + 1) = i0 + 1 + t := by omega
        rw [e] at hb
        simp only [List.getD_cons_succ] at hb
        rw [← hb]
        apply readByte_congr N hN1 _ m (param + (i0 + 1 + t) * (N + N))
        intro y hy1 hy2
        apply hframe y
        right
        have h1 : (i0 + 1) * (N + N) ≤ (i0 + 1 + t) * (N + N) :=
          Nat.mul_le_mul_right _ (by omega)
        have h2 : i0 * (N + N) + (N + N) = (i0 + 1) * (N + N) := by
          rw [Nat.succ_mul]
        omega
      rw [ih (i0 + 1) _ (fun u hu => hlt u (by simp [hu])) hrd x hx,
        hframe x (by omega)]
    · have hd : d < 256 := hlt d (by simp)
      have hr : EEPROM_ReadWearLeveledByte N m (param + i0 * (N + N)) = d := by
        have hb := hread 0 (by simp) (by omega)
        simpa using hb
      rw [write_elide N m _ d hd hr]
      apply ih (i0 + 1) m (fun u hu => hlt u (by simp [hu])) ?_ x hx
      intro t ht _
      have hb := hread (t + 1) (by simp only [List.length_cons]; omega) (by omega)
      have e : i0 + (t + 1) = i0 + 1 + t := by omega
      rw [e] at hb
      simpa only [List.getD_cons_succ] using hb

/-! ### Uniqueness of the ascending-run seam -/

theorem seam_unique (g : Nat → Nat) (N k1 k2 : Nat)
    (h1 : k1 < N ∧ (∀ i, i < k1 → g (i + 1) = (g i + 1) % 256) ∧
      (k1 + 1 = N ∨ g (k1 + 1) ≠ (g k1 + 1) % 256))
    (h2 : k2 < N ∧ (∀ i, i < k2 → g (i + 1) = (g i + 1) % 256) ∧
      (k2 + 1 = N ∨ g (k2 + 1) ≠ (g k2 + 1) % 256)) : k1 = k2 := by
  by_contra hne
  rcases Nat.lt_or_ge k1 k2 with hlt | hge
  · rcases h1.2.2 with hend | hbreak
    · omega
    · exact hbreak (h2.2.1 k1 (by omega))
  · have hlt : k2 < k1 := by omega
    rcases h2.2.2 with hend | hbreak
    · omega
    · exact hbreak (h1.2.1 k2 (by omega))

/-! ### Decrement modulo N -/

theorem pred_mod (N x : Nat) (hN : 1 ≤ N) (hx : 1 ≤ x) :
    (x % N + N - 1) % N = (x - 1) % N := by
  have hr : x % N < N := Nat.mod_lt _ (by omega)
  have hdm : N * (x / N) + x % N = x := Nat.div_add_mod x N
  by_cases h0 : x % N = 0
  · rw [h0]
    have hq1 : 1 ≤ x / N := by
      rcases Nat.eq_zero_or_pos (x / N) with hq0 | hqpos
      · rw [hq0, Nat.mul_zero] at hdm
        omega
      · exact hqpos
    have e1 : x - 1 = N * (x / N - 1) + (N - 1) := by
      have e2 : N * (x / N) = N * (x / N - 1) + N := by
        calc N * (x / N) = N * ((x / N - 1) + 1) := by rw [Nat.sub_add_cancel hq1]
          _ = N * (x / N - 1) + N := by rw [Nat.mul_add, Nat.mul_one]
      omega
    rw [e1, Nat.mul_add_mod]
    simp only [Nat.zero_add]
  · have e1 : x - 1 = N * (x / N) + (x % N - 1) := by omega
    rw [e1, Nat.mul_add_mod]
    have e2 : x % N + N - 1 = (x % N - 1) + N := by omega
    rw [e2, Nat.add_mod_right]

theorem shift_active_mod (N t : Nat) (hN : 1 ≤ N) :
    ((1 % N + t) % N + N - 1) % N = t % N := by
  rw [Nat.mod_add_mod]
  have h := pred_mod N (1 + t) hN (by omega)
  simpa using h

theorem take_mod_ne (N t1 t2 : Nat) (hN : 1 ≤ N) (hlt : t1 < t2)
    (hwin : t2 - t1 < N) : t1 % N ≠ t2 % N := by
  intro he
  have hdvd : N ∣ t2 - t1 := (Nat.modEq_iff_dvd' (by omega)).mp he
  have := Nat.le_of_dvd (by omega) hdvd
  omega

/-! ### Resolver position after a prefix of changing updates -/

theorem find_after_take (N : Nat) (hN1 : 1 ≤ N) (hN : N ≤ 255) (m : Mem)
    (param v0 : Nat) (vs : List Nat) (hv0 : v0 < 256)
    (hvs : ∀ u ∈ vs, u < 256)
    (hchain : List.Chain' (fun a b => a ≠ b) (v0 :: vs)) (t : Nat)
    (ht : t ≤ vs.length) :
    EEPROM_FindCurrentAddress N
      (applyWrites N param (EEPROM_InitWearLeveledByte N m param v0).1 (vs.take t))
      param = param + t % N := by
  have hG := init_good N hN1 hN m param v0 hv0
  have hchain2 : List.Chain' (fun a b => a ≠ b) (v0 :: vs.take t) := by
    have h3 := List.Chain'.take hchain (t + 1)
    simpa using h3
  obtain ⟨C, hC⟩ := applyWrites_chain N hN1 hN (vs.take t) _ param (1 % N) 0 v0 hG
    (fun u hu => hvs u (List.take_subset t vs hu)) hchain2
  rw [find_active N hN1 hN _ param _ C hC.1 hC.2.1 hC.2.2.2.1]
  have hlen : (vs.take t).length = t := by
    simp only [List.length_take]
    omega
  rw [hlen, shift_active_mod N t hN1]

/-! ### Claim theorems -/

/-- C1.  Update correctness: for every base offset, wear-level factor in
range, and sequence of byte values, after `EEPROM_InitWearLeveledByte
(param, v0)` followed by successive `EEPROM_WriteWearLeveledByte
(param, vi)` calls, `EEPROM_ReadWearLeveledByte(param)` returns the
last value written.  Quantifying over all sequences covers the value
after every intermediate step `i` (instantiate `vs` with the first `i`
values). -/
theorem eeprom_update_correctness (N : Nat) (m : Mem) (param v0 : Nat)
    (vs : List Nat) (hN1 : 1 ≤ N) (hN : N ≤ 255) (hv0 : v0 < 256)
    (hvs : ∀ u ∈ vs, u < 256) :
    EEPROM_ReadWearLeveledByte N
      (applyWrites N param (EEPROM_InitWearLeveledByte N m param v0).1 vs) param
      = vs.getLastD v0 := by
  obtain ⟨t, C, hGood⟩ := applyWrites_good N hN1 hN vs _ param (1 % N) 0 v0
    (init_good N hN1 hN m param v0 hv0) hvs
  exact readByte_good N hN1 hN hGood

/-- Witness for C1 at the concrete input `N = 2`, `param = 0`,
`v0 = 1`, updates `[2, 3]`. -/
theorem eeprom_update_correctness_witness :
    (1 ≤ 2 ∧ 2 ≤ 255 ∧ 1 < 256 ∧ ∀ u ∈ [2, 3], u < 256) ∧
    EEPROM_ReadWearLeveledByte 2
      (applyWrites 2 0 (EEPROM_InitWearLeveledByte 2 eeprom0 0 1).1 [2, 3]) 0
      = [2, 3].getLastD 1 :=
  ⟨⟨by decide, by decide, by decide, by decide⟩,
    eeprom_update_correctness 2 eeprom0 0 1 [2, 3] (by decide) (by decide)
      (by decide) (by decide)⟩

/-- C2, counterexample.  The claim asserts active-slot resolution is
correct for every wear-level factor `N` in `[1, 256]`.  At `N = 256`
this fails: immediately after `EEPROM_InitWearLeveledByte(0, 0x40)`
(state `M256`, reachable by the empty update sequence), the generation
counters `255, 0, 1, ..., 254` form one full ascending cycle mod 256,
so the scan never finds the seam, `EEPROM_FindCurrentAddress` resolves
slot 255 (not slot 0, the slot the initializer wrote most recently),
and `EEPROM_ReadWearLeveledByte` returns the erased byte `0xFF`
instead of `0x40`. -/
theorem eeprom_resolver_wrap_N256_counterexample :
    EEPROM_FindCurrentAddress 256 M256 0 = 255 ∧
    EEPROM_ReadWearLeveledByte 256 M256 0 = 255 ∧
    EEPROM_Read M256 0 = 64 := by
  have hg0 : EEPROM_Read M256 (0 + 256) = 255 := by
    show EEPROM_Read (EEPROM_InitWearLeveledByte 256 eeprom0 0 64).1 (0 + 256) = 255
    rw [init_read_gen0 256 (by omega) eeprom0 0 64]
  have hgi : ∀ i, 1 ≤ i → i < 256 → EEPROM_Read M256 (0 + 256 + i) = i - 1 := by
    intro i h1 hi
    show EEPROM_Read (EEPROM_InitWearLeveledByte 256 eeprom0 0 64).1 (0 + 256 + i)
      = i - 1
    rw [init_read_gen 256 eeprom0 0 64 i h1 hi]
    omega
  have H1 : ∀ i, i < 255 →
      EEPROM_Read M256 (0 + 256 + (i + 1)) = (EEPROM_Read M256 (0 + 256 + i) + 1) % 256 := by
    intro i hi
    rw [hgi (i + 1) (by omega) (by omega)]
    by_cases h0 : i = 0
    · subst h0
      simp only [Nat.add_zero]
      rw [hg0]
    · rw [hgi i (by omega) (by omega)]
      omega
  have hstop := findLoopT_stop M256 0 256 255 (by omega) (by omega) H1
    (fun h => absurd h (by omega)) 256 0 (by omega) (by omega)
  simp only [Nat.add_zero] at hstop
  have hfind : EEPROM_FindCurrentAddress 256 M256 0 = 255 := by
    unfold EEPROM_FindCurrentAddress
    rw [hstop]
  have hdata : EEPROM_Read M256 255 = 255 := by
    show EEPROM_Read (EEPROM_InitWearLeveledByte 256 eeprom0 0 64).1 (0 + 255) = 255
    rw [init_read_data_other 256 eeprom0 0 64 255 (by omega) (by omega)]
    decide
  refine ⟨hfind, ?_, ?_⟩
  · unfold EEPROM_ReadWearLeveledByte
    rw [hfind]
    exact hdata
  · show EEPROM_Read (EEPROM_InitWearLeveledByte 256 eeprom0 0 64).1 (0 + 0) = 64
    rw [init_read_data 256 (by omega) eeprom0 0 64]

/-- C2, amended.  For every wear-level factor `N` in `[1, 255]` (the
claim said `[1, 256]`; `N = 256` is refuted by the counterexample) and
every slot-group state reachable from `EEPROM_InitWearLeveledByte` by a
sequence of `EEPROM_WriteWearLeveledByte` calls, the resolver
`EEPROM_FindCurrentAddress` returns the address of the most recently
physically written data slot (tracked by the ghost second component of
`runUpdates`, seeded with `param`, the cell the initializer writes).
Generation counters wrapping past 255 back to 0 are covered: the
update sequence is arbitrary, so counters take every value mod 256. -/
theorem eeprom_resolver_returns_last_written (N : Nat) (m : Mem)
    (param v0 : Nat) (vs : List Nat) (hN1 : 1 ≤ N) (hN : N ≤ 255)
    (hv0 : v0 < 256) (hvs : ∀ u ∈ vs, u < 256) :
    EEPROM_FindCurrentAddress N
      (runUpdates N param ((EEPROM_InitWearLeveledByte N m param v0).1, param) vs).1
      param
      = (runUpdates N param ((EEPROM_InitWearLeveledByte N m param v0).1, param) vs).2 := by
  have hG := init_good N hN1 hN m param v0 hv0
  have hlast : param = param + (1 % N + N - 1) % N := by
    rw [init_active N hN1]
    omega
  obtain ⟨t, C, x, hGood, hx⟩ := runUpdates_good N hN1 hN vs _ param (1 % N) 0 v0
    param hG hlast hvs
  rw [hx]
  exact find_active N hN1 hN _ param t C hGood.1 hGood.2.1 hGood.2.2.2.1

/-- Witness for the amended C2 at `N = 2`, `param = 0`, `v0 = 1`,
updates `[2, 3]`. -/
theorem eeprom_resolver_returns_last_written_witness :
    (1 ≤ 2 ∧ 2 ≤ 255 ∧ 1 < 256 ∧ ∀ u ∈ [2, 3], u < 256) ∧
    EEPROM_FindCurrentAddress 2
      (runUpdates 2 0 ((EEPROM_InitWearLeveledByte 2 eeprom0 0 1).1, 0) [2, 3]).1 0
      = (runUpdates 2 0 ((EEPROM_InitWearLeveledByte 2 eeprom0 0 1).1, 0) [2, 3]).2 :=
  ⟨⟨by decide, by decide, by decide, by decide⟩,
    eeprom_resolver_returns_last_written 2 eeprom0 0 1 [2, 3] (by decide)
      (by decide) (by decide) (by decide)⟩

/-- C3.  Single-ascending-run invariant: in any state reachable by
`EEPROM_InitWearLeveledByte(param, v0)` followed by any sequence of
`EEPROM_WriteWearLeveledByte` calls (in particular, immediately after
initialization: `vs = []`, and preserved by each further write), there
is exactly one index `k < N` such that `gen[0..k]` is consecutively
ascending mod 256 and either `k` is the last index or
`gen[k+1] != gen[k] + 1 (mod 256)`. -/
theorem eeprom_single_run_invariant (N : Nat) (m : Mem) (param v0 : Nat)
    (vs : List Nat) (hN1 : 1 ≤ N) (hN : N ≤ 255) (hv0 : v0 < 256)
    (hvs : ∀ u ∈ vs, u < 256) :
    ∃! k, k < N ∧
      (∀ i, i < k →
        EEPROM_Read (applyWrites N param (EEPROM_InitWearLeveledByte N m param v0).1 vs)
          (param + N + (i + 1)) =
        (EEPROM_Read (applyWrites N param (EEPROM_InitWearLeveledByte N m param v0).1 vs)
          (param + N + i) + 1) % 256) ∧
      (k + 1 = N ∨
        EEPROM_Read (applyWrites N param (EEPROM_InitWearLeveledByte N m param v0).1 vs)
          (param + N + (k + 1)) ≠
        (EEPROM_Read (applyWrites N param (EEPROM_InitWearLeveledByte N m param v0).1 vs)
          (param + N + k) + 1) % 256) := by
  obtain ⟨t, C, hGood⟩ := applyWrites_good N hN1 hN vs _ param (1 % N) 0 v0
    (init_good N hN1 hN m param v0 hv0) hvs
  obtain ⟨ht, hC, hval, hInv, hdata⟩ := hGood
  have ha : (t + N - 1) % N < N := Nat.mod_lt _ (by omega)
  have hbreak : (t + N - 1) % N + 1 = N ∨
      EEPROM_Read (applyWrites N param (EEPROM_InitWearLeveledByte N m param v0).1 vs)
        (param + N + ((t + N - 1) % N + 1)) ≠
      (EEPROM_Read (applyWrites N param (EEPROM_InitWearLeveledByte N m param v0).1 vs)
        (param + N + (t + N - 1) % N) + 1) % 256 := by
    by_cases hend : (t + N - 1) % N + 1 = N
    · exact Or.inl hend
    · exact Or.inr (run_break N hN1 hN _ param t C ht hC hInv (by omega))
  refine ⟨(t + N - 1) % N, ⟨ha, run_match N hN1 _ param t C ht hInv, hbreak⟩, ?_⟩
  intro y hy
  exact seam_unique
    (fun q => EEPROM_Read
      (applyWrites N param (EEPROM_InitWearLeveledByte N m param v0).1 vs)
      (param + N + q))
    N y ((t + N - 1) % N) hy ⟨ha, run_match N hN1 _ param t C ht hInv, hbreak⟩

/-- Witness for C3 at `N = 2`, `param = 0`, `v0 = 1`, updates `[2]`. -/
theorem eeprom_single_run_invariant_witness :
    (1 ≤ 2 ∧ 2 ≤ 255 ∧ 1 < 256 ∧ ∀ u ∈ [2], u < 256) ∧
    (∃! k, k < 2 ∧
      (∀ i, i < k →
        EEPROM_Read (applyWrites 2 0 (EEPROM_InitWearLeveledByte 2 eeprom0 0 1).1 [2])
          (0 + 2 + (i + 1)) =
        (EEPROM_Read (applyWrites 2 0 (EEPROM_InitWearLeveledByte 2 eeprom0 0 1).1 [2])
          (0 + 2 + i) + 1) % 256) ∧
      (k + 1 = 2 ∨
        EEPROM_Read (applyWrites 2 0 (EEPROM_InitWearLeveledByte 2 eeprom0 0 1).1 [2])
          (0 + 2 + (k + 1)) ≠
        (EEPROM_Read (applyWrites 2 0 (EEPROM_InitWearLeveledByte 2 eeprom0 0 1).1 [2])
          (0 + 2 + k) + 1) % 256)) :=
  ⟨⟨by decide, by decide, by decide, by decide⟩,
    eeprom_single_run_invariant 2 eeprom0 0 1 [2] (by decide) (by decide)
      (by decide) (by decide)⟩

/-- C4.  Write elision: whenever `EEPROM_WriteWearLeveledByte(param, w)`
is called while `EEPROM_ReadWearLeveledByte(param)` already equals `w`,
the function returns before performing any physical write, so the
entire medium (in particular the whole `2N`-byte slot-group at `param`,
data and counter cells alike) is byte-for-byte identical before and
after the call, and the ghost write address is `none`.  This holds for
every medium state, hence in particular for every initialized
slot-group. -/
theorem eeprom_write_elision (N : Nat) (m : Mem) (param w : Nat)
    (hw : w < 256) (hr : EEPROM_ReadWearLeveledByte N m param = w) :
    (EEPROM_WriteWearLeveledByte N m param w).1 = m ∧
    (EEPROM_WriteWearLeveledByte N m param w).2 = none := by
  rw [write_elide N m param w hw hr]
  exact ⟨rfl, rfl⟩

/-- Witness for C4: the demo state after `N = 8` initialization with
`0x40`, rewritten with the same value `0x40`. -/
theorem eeprom_write_elision_witness :
    (64 < 256 ∧ EEPROM_ReadWearLeveledByte 8 demoInit 0 = 64) ∧
    (EEPROM_WriteWearLeveledByte 8 demoInit 0 64).1 = demoInit ∧
    (EEPROM_WriteWearLeveledByte 8 demoInit 0 64).2 = none :=
  ⟨⟨by decide, by decide⟩,
    eeprom_write_elision 8 demoInit 0 64 (by decide) (by decide)⟩

/-- C5.  Round-trip at initialization: for every base offset and byte
`v`, `EEPROM_InitWearLeveledByte(param, v)` returns `v`, makes slot 0
the active slot per the resolver (`EEPROM_FindCurrentAddress` returns
`param`, the address of data slot 0), and
`EEPROM_ReadWearLeveledByte(param)` returns `v`. -/
theorem eeprom_init_roundtrip (N : Nat) (m : Mem) (param v : Nat)
    (hN1 : 1 ≤ N) (hN : N ≤ 255) (hv : v < 256) :
    (EEPROM_InitWearLeveledByte N m param v).2 = v ∧
    EEPROM_FindCurrentAddress N (EEPROM_InitWearLeveledByte N m param v).1 param
      = param ∧
    EEPROM_ReadWearLeveledByte N (EEPROM_InitWearLeveledByte N m param v).1 param
      = v := by
  have hG := init_good N hN1 hN m param v hv
  refine ⟨Nat.mod_eq_of_lt hv, ?_, readByte_good N hN1 hN hG⟩
  rw [find_active N hN1 hN _ param (1 % N) 0 hG.1 hG.2.1 hG.2.2.2.1,
    init_active N hN1]
  omega

/-- Witness for C5 at `N = 8`, `param = 0`, `v = 0x40`. -/
theorem eeprom_init_roundtrip_witness :
    (1 ≤ 8 ∧ 8 ≤ 255 ∧ 64 < 256) ∧
    (EEPROM_InitWearLeveledByte 8 eeprom0 0 64).2 = 64 ∧
    EEPROM_FindCurrentAddress 8 (EEPROM_InitWearLeveledByte 8 eeprom0 0 64).1 0 = 0 ∧
    EEPROM_ReadWearLeveledByte 8 (EEPROM_InitWearLeveledByte 8 eeprom0 0 64).1 0 = 64 :=
  ⟨⟨by decide, by decide, by decide⟩,
    eeprom_init_roundtrip 8 eeprom0 0 64 (by decide) (by decide) (by decide)⟩

/-- C6.  Block independence: in an initialized block whose byte `i`
lives in the slot-group based at `param + i * 2N` (the stride used by
`EEPROM_WriteWearLeveledBlock`), a block write whose buffer agrees
with the stored bytes everywhere except at position `j` leaves every
medium cell outside byte `j`'s own `2N`-byte slot-group unchanged. -/
theorem eeprom_block_independence (N : Nat) (m : Mem) (param : Nat)
    (buf : List Nat) (j x : Nat) (hN1 : 1 ≤ N)
    (hbuf : ∀ u ∈ buf, u < 256) (hj : j < buf.length)
    (hsame : ∀ i, i < buf.length → i ≠ j →
      EEPROM_ReadWearLeveledByte N m (param + i * (N + N)) = buf.getD i 0)
    (hx : ¬(param + j * (N + N) ≤ x ∧ x < param + j * (N + N) + (N + N))) :
    EEPROM_WriteWearLeveledBlock N m param buf x = m x := by
  unfold EEPROM_WriteWearLeveledBlock
  apply writeBlockAux_frame N param j hN1 buf 0 m hbuf ?_ x hx
  intro t ht hne
  have hb := hsame t ht (by omega)
  simpa using hb

/-- Witness for C6: `N = 1`, a two-byte block initialized to `[5, 7]`
and rewritten with `[6, 7]` (only byte 0 differs); the cell at
address 2 (inside byte 1's slot-group) is untouched. -/
theorem eeprom_block_independence_witness :
    (1 ≤ 1 ∧ (∀ u ∈ [6, 7], u < 256) ∧ 0 < ([6, 7] : List Nat).length ∧
      (∀ i, i < ([6, 7] : List Nat).length → i ≠ 0 →
        EEPROM_ReadWearLeveledByte 1 (EEPROM_InitWearLeveledBlock 1 eeprom0 0 [5, 7])
          (0 + i * (1 + 1)) = [6, 7].getD i 0) ∧
      ¬(0 + 0 * (1 + 1) ≤ 2 ∧ 2 < 0 + 0 * (1 + 1) + (1 + 1))) ∧
    EEPROM_WriteWearLeveledBlock 1 (EEPROM_InitWearLeveledBlock 1 eeprom0 0 [5, 7])
      0 [6, 7] 2 = EEPROM_InitWearLeveledBlock 1 eeprom0 0 [5, 7] 2 :=
  ⟨⟨by decide, by decide, by decide, by decide, by decide⟩,
    eeprom_block_independence 1 (EEPROM_InitWearLeveledBlock 1 eeprom0 0 [5, 7]) 0
      [6, 7] 0 2 (by decide) (by decide) (by decide) (by decide) (by decide)⟩

/-- C7.  Ring advancement: starting from an initialized slot-group
(active slot 0) and applying consecutive value-changing updates, after
`t` updates the resolver points at data slot `t % N` (so each changing
update advances the active slot by one, round-robin), and within any
window of fewer than `N` changing updates no slot is active twice. -/
theorem eeprom_ring_advancement (N : Nat) (m : Mem) (param v0 : Nat)
    (vs : List Nat) (hN1 : 1 ≤ N) (hN : N ≤ 255) (hv0 : v0 < 256)
    (hvs : ∀ u ∈ vs, u < 256)
    (hchain : List.Chain' (fun a b => a ≠ b) (v0 :: vs)) :
    (∀ t, t ≤ vs.length →
      EEPROM_FindCurrentAddress N
        (applyWrites N param (EEPROM_InitWearLeveledByte N m param v0).1 (vs.take t))
        param = param + t % N) ∧
    (∀ t1 t2, t1 < t2 → t2 ≤ vs.length → t2 - t1 < N →
      EEPROM_FindCurrentAddress N
        (applyWrites N param (EEPROM_InitWearLeveledByte N m param v0).1 (vs.take t1))
        param ≠
      EEPROM_FindCurrentAddress N
        (applyWrites N param (EEPROM_InitWearLeveledByte N m param v0).1 (vs.take t2))
        param) := by
  constructor
  · exact fun t ht => find_after_take N hN1 hN m param v0 vs hv0 hvs hchain t ht
  · intro t1 t2 h12 h2 hwin
    rw [find_after_take N hN1 hN m param v0 vs hv0 hvs hchain t1 (by omega),
      find_after_take N hN1 hN m param v0 vs hv0 hvs hchain t2 h2]
    intro he
    exact take_mod_ne N t1 t2 hN1 h12 hwin (by omega)

/-- Witness for C7 at `N = 2`, `param = 0`, `v0 = 1`, changing
updates `[2, 3]`: after both updates the active slot is `2 % 2 = 0`,
and the active slots after 0 and 1 updates differ. -/
theorem eeprom_ring_advancement_witness :
    (1 ≤ 2 ∧ 2 ≤ 255 ∧ 1 < 256 ∧ (∀ u ∈ [2, 3], u < 256) ∧
      List.Chain' (fun a b => a ≠ b) [1, 2, 3]) ∧
    EEPROM_FindCurrentAddress 2
      (applyWrites 2 0 (EEPROM_InitWearLeveledByte 2 eeprom0 0 1).1 ([2, 3].take 2))
      0 = 0 + 2 % 2 ∧
    EEPROM_FindCurrentAddress 2
      (applyWrites 2 0 (EEPROM_InitWearLeveledByte 2 eeprom0 0 1).1 ([2, 3].take 0))
      0 ≠
    EEPROM_FindCurrentAddress 2
      (applyWrites 2 0 (EEPROM_InitWearLeveledByte 2 eeprom0 0 1).1 ([2, 3].take 1))
      0 :=
  ⟨⟨by decide, by decide, by decide, by decide,
      by norm_num [List.chain'_cons]⟩,
    (eeprom_ring_advancement 2 eeprom0 0 1 [2, 3] (by decide) (by decide)
      (by decide) (by decide) (by norm_num [List.chain'_cons])).1 2 (by decide),
    (eeprom_ring_advancement 2 eeprom0 0 1 [2, 3] (by decide) (by decide)
      (by decide) (by decide) (by norm_num [List.chain'_cons])).2 0 1
      (by decide) (by decide) (by decide)⟩

/-- C8.  Concrete scenario with `N = 8` on the all-`0xFF` medium:
after `EEPROM_InitWearLeveledByte(0, 0x40)` the 16-byte region at base
0 reads `40 FF FF FF FF FF FF FF 07 00 01 02 03 04 05 06`; after a
subsequent `EEPROM_WriteWearLeveledByte(0, 0x41)` it reads
`40 41 FF FF FF FF FF FF 07 08 01 02 03 04 05 06`; and a second
`EEPROM_WriteWearLeveledByte(0, 0x41)` leaves the medium byte-for-byte
unchanged. -/
theorem eeprom_concrete_scenario_N8 :
    (List.range 16).map demoInit
      = [0x40, 0xFF, 0xFF, 0xFF, 0xFF, 0xFF, 0xFF, 0xFF,
         0x07, 0x00, 0x01, 0x02, 0x03, 0x04, 0x05, 0x06] ∧
    (List.range 16).map demoW1
      = [0x40, 0x41, 0xFF, 0xFF, 0xFF, 0xFF, 0xFF, 0xFF,
         0x07, 0x08, 0x01, 0x02, 0x03, 0x04, 0x05, 0x06] ∧
    (EEPROM_WriteWearLeveledByte 8 demoW1 0 0x41).1 = demoW1 := by
  refine ⟨by decide, by decide, ?_⟩
  rw [write_elide 8 demoW1 0 0x41 (by decide) (by decide)]

/-- C9.  Resolver safety on arbitrary medium content: for every
`N ≥ 1`, every medium `m` (initialized or not) and every base,
`EEPROM_FindCurrentAddress` terminates having read only counter-cell
addresses in `[param + N, param + 2N)` (hence at most `N` distinct
counter cells), and returns an address inside the data region
`[param, param + N)`. -/
theorem eeprom_find_safety (N : Nat) (m : Mem) (param : Nat) (hN1 : 1 ≤ N) :
    (∀ x ∈ findReadTrace N m param, param + N ≤ x ∧ x < param + N + N) ∧
    (findReadTrace N m param).toFinset.card ≤ N ∧
    param ≤ EEPROM_FindCurrentAddress N m param ∧
    EEPROM_FindCurrentAddress N m param < param + N := by
  have h := findLoopT_range m param N N 0 (by omega) (by omega)
  simp only [Nat.add_zero] at h
  have htr : ∀ x ∈ findReadTrace N m param, param + N ≤ x ∧ x < param + N + N := by
    intro x hx
    exact h.2 x hx
  refine ⟨htr, ?_, (find_range N hN1 m param).1, (find_range N hN1 m param).2⟩
  have hsub : (findReadTrace N m param).toFinset ⊆
      Finset.Ico (param + N) (param + N + N) := by
    intro y hy
    rw [List.mem_toFinset] at hy
    have hb := htr y hy
    rw [Finset.mem_Ico]
    omega
  calc (findReadTrace N m param).toFinset.card
      ≤ (Finset.Ico (param + N) (param + N + N)).card := Finset.card_le_card hsub
    _ = N := by rw [Nat.card_Ico]; omega

/-- Witness for C9 at `N = 1`, the erased medium, base 0 (a region
that was never initialized). -/
theorem eeprom_find_safety_witness :
    (1 ≤ 1) ∧
    (0 + 1 ≤ 1 ∧ 1 < 0 + 1 + 1) ∧
    (findReadTrace 1 eeprom0 0).toFinset.card ≤ 1 ∧
    0 ≤ EEPROM_FindCurrentAddress 1 eeprom0 0 ∧
    EEPROM_FindCurrentAddress 1 eeprom0 0 < 0 + 1 :=
  ⟨by decide,
    (eeprom_find_safety 1 eeprom0 0 (by decide)).1 1 (by decide),
    (eeprom_find_safety 1 eeprom0 0 (by decide)).2.1,
    (eeprom_find_safety 1 eeprom0 0 (by decide)).2.2.1,
    (eeprom_find_safety 1 eeprom0 0 (by decide)).2.2.2⟩

/-- C10.  Data is written strictly before its counter: when
`EEPROM_WriteWearLeveledByte` performs a physical update on a
slot-group satisfying the invariant (with `N ≥ 2` live slots), the
final medium is exactly one counter write on top of the intermediate
medium in which only the data write to the next slot `param + s` has
completed; in that intermediate medium the resolver still returns the
previous active slot and `EEPROM_ReadWearLeveledByte` still returns
the previous value `v`. -/
theorem eeprom_data_write_before_counter (N : Nat) (m : Mem)
    (param s B v w : Nat) (hN2 : 2 ≤ N) (hN : N ≤ 255)
    (hG : Good N m param s B v) (hw : w < 256) (hne : w ≠ v) :
    (∃ c, (EEPROM_WriteWearLeveledByte N m param w).1
      = EEPROM_Write (EEPROM_Write m (param + s) w) (param + s + N) c) ∧
    EEPROM_FindCurrentAddress N (EEPROM_Write m (param + s) w) param
      = EEPROM_FindCurrentAddress N m param ∧
    EEPROM_ReadWearLeveledByte N (EEPROM_Write m (param + s) w) param = v := by
  have hN1 : 1 ≤ N := by omega
  have hs := hG.1
  have hB := hG.2.1
  have hInv := hG.2.2.2.1
  have hdata := hG.2.2.2.2
  have hfm : EEPROM_FindCurrentAddress N (EEPROM_Write m (param + s) w) param
      = EEPROM_FindCurrentAddress N m param := by
    apply find_congr N hN1 _ m param
    intro y hy1 hy2
    exact EEPROM_Write_ne m (param + s) w y (by omega)
  refine ⟨⟨(B + (N - 1)) % 256 + 1, ?_⟩, hfm, ?_⟩
  · rw [write_step N hN1 hN m param s B v w hG hw hne]
  · unfold EEPROM_ReadWearLeveledByte
    rw [hfm, find_active N hN1 hN m param s B hs hB hInv]
    have has : param + (s + N - 1) % N ≠ param + s := by
      rw [active_char N s hN1 hs]
      split
      case isTrue h => omega
      case isFalse h => omega
    rw [EEPROM_Read_Write_ne m (param + s) w _ has]
    exact hdata

/-- Witness for C10 at `N = 8`, the demo initialized state (active
slot 0, next slot `s = 1`), new value `0x41`. -/
theorem eeprom_data_write_before_counter_witness :
    (2 ≤ 8 ∧ 8 ≤ 255 ∧ Good 8 demoInit 0 1 0 64 ∧ 65 < 256 ∧ 65 ≠ 64) ∧
    ((∃ c, (EEPROM_WriteWearLeveledByte 8 demoInit 0 65).1
      = EEPROM_Write (EEPROM_Write demoInit (0 + 1) 65) (0 + 1 + 8) c) ∧
    EEPROM_FindCurrentAddress 8 (EEPROM_Write demoInit (0 + 1) 65) 0
      = EEPROM_FindCurrentAddress 8 demoInit 0 ∧
    EEPROM_ReadWearLeveledByte 8 (EEPROM_Write demoInit (0 + 1) 65) 0 = 64) :=
  ⟨⟨by decide, by decide, by decide, by decide, by decide⟩,
    eeprom_data_write_before_counter 8 demoInit 0 1 0 64 65 (by decide)
      (by decide) (by decide) (by decide) (by decide)⟩
